import Mathlib

/-!
Verification of the backtest engine (`src/backtest/backtester.py`) and its
metrics module (`src/backtest/evaluation.py`) of the `quant` repository.

Numbers are embedded as exact rationals (`ℚ`): Python floats become `ℚ`, and
`int(x)` (truncation toward zero) becomes `pyInt`.  Pandas series with NaN
holes (the leading NaN of `pct_change`) are embedded as `List (Option ℚ)`,
`none` standing for NaN.  Division by zero never occurs on the inputs the
theorems quantify over (positivity hypotheses mirror the spec's data-model
precondition that close prices are positive).
-/

namespace Quant

/-- Python `int(x)` on a rational: truncation toward zero. -/
def pyInt (q : ℚ) : ℤ := if 0 ≤ q then ⌊q⌋ else -⌊-q⌋

/-- One row of the ledger produced by `Backtester.run`: the `holdings`,
`cash` and `total` columns written at lines 71-73 of backtester.py. -/
structure LedgerEntry where
  holdings : ℚ
  cash : ℚ
  total : ℚ
  deriving Repr, DecidableEq

/-- The mutable loop state of `Backtester.run` (lines 44-45):
`cash` and `position` (share count, a Python int). -/
structure BTState where
  cash : ℚ
  position : ℤ
  deriving Repr, DecidableEq

/-- One iteration of the loop body of `Backtester.run` (lines 48-68):
buy with all cash when `signal > 0` and flat, sell everything when
`signal < 0` and holding, otherwise leave the state unchanged. -/
def btStep (commission : ℚ) (st : BTState) (signal : ℤ) (price : ℚ) : BTState :=
  if 0 < signal ∧ st.position = 0 then
    let shares_to_buy : ℤ := pyInt (st.cash * (1 - commission) / price)
    let cost : ℚ := (shares_to_buy : ℚ) * price
    let commission_cost : ℚ := cost * commission
    { cash := st.cash - (cost + commission_cost), position := shares_to_buy }
  else if signal < 0 ∧ 0 < st.position then
    let revenue : ℚ := (st.position : ℚ) * price
    let commission_cost : ℚ := revenue * commission
    { cash := st.cash + (revenue - commission_cost), position := 0 }
  else st

/-- The ledger row written for bar `i ≥ 1` after the state update
(lines 71-73): `holdings = position * price`, `cash`, `total = cash +
position * price`. -/
def entryOf (st : BTState) (price : ℚ) : LedgerEntry :=
  { holdings := (st.position : ℚ) * price
  , cash := st.cash
  , total := st.cash + (st.position : ℚ) * price }

/-- The seeded row for bar 0 (lines 40-42 are the seed; the loop starts at
index 1 and never overwrites row 0). -/
def initEntry (initial_capital : ℚ) : LedgerEntry :=
  { holdings := 0, cash := initial_capital, total := initial_capital }

/-- The loop of `Backtester.run` over the bars of index `≥ 1`, emitting one
ledger row per bar.  A bar is a `(signal, close)` pair. -/
def runAux (commission : ℚ) (st : BTState) : List (ℤ × ℚ) → List LedgerEntry
  | [] => []
  | (sig, price) :: rest =>
      let st' := btStep commission st sig price
      entryOf st' price :: runAux commission st' rest

/-- `Backtester.run` (lines 25-76), restricted to what it computes: from the
aligned `(signal, close)` series it returns the ledger, one row per bar.
Row 0 is the seeded initial state; rows `1..n-1` come from the loop.
The source contains no validation and no raise: the function is total. -/
def backtester_run (initial_capital commission : ℚ)
    (bars : List (ℤ × ℚ)) : List LedgerEntry :=
  match bars with
  | [] => []
  | _ :: rest => initEntry initial_capital ::
      runAux commission { cash := initial_capital, position := 0 } rest

/-- The loop state in force at bar `i`: the initial state folded through the
loop body over bars `1..i` (bar 0 is never traded). -/
def stateAt (initial_capital commission : ℚ) (bars : List (ℤ × ℚ)) (i : ℕ) :
    BTState :=
  ((bars.drop 1).take i).foldl
    (fun st b => btStep commission st b.1 b.2)
    { cash := initial_capital, position := 0 }

/-! ## Metrics module (`src/backtest/evaluation.py`) -/

/-- The last element of a fold with `max`: `pandas.Series.max` over a
nonempty series seeded with its head. -/
def seriesMax (v : ℚ) (rest : List ℚ) : ℚ := rest.foldl max v

/-- `pandas.Series.min` over a nonempty series. -/
def seriesMin (v : ℚ) (rest : List ℚ) : ℚ := rest.foldl min v

/-- The tail of `portfolio_value.cummax()` given the running maximum `m`
reached so far. -/
def cummaxAux (m : ℚ) : List ℚ → List ℚ
  | [] => []
  | v :: rest => max m v :: cummaxAux (max m v) rest

/-- `portfolio_value.cummax()` (evaluation.py line 20): elementwise running
maximum. -/
def cummax : List ℚ → List ℚ
  | [] => []
  | v :: rest => v :: cummaxAux v rest

/-- `calculate_max_drawdown` (evaluation.py lines 10-24):
`drawdown = (portfolio_value - cummax) / cummax`, result `drawdown.min()`.
Embedded for nonempty series (pandas `min` of an empty series is NaN, which
has no rational counterpart; no claim concerns the empty series). -/
def calculate_max_drawdown (vs : List ℚ) : ℚ :=
  match List.zipWith (fun v m => (v - m) / m) vs (cummax vs) with
  | [] => 0
  | d :: rest => seriesMin d rest

/-- `M[i] = max(total_value[0..i])`: the maximum of the prefix ending at
index `i`, written from the spec words. -/
def specRunningMax (vs : List ℚ) (i : ℕ) : ℚ :=
  match vs.take (i + 1) with
  | [] => 0
  | h :: t => seriesMax h t

/-- The spec formula for max drawdown, stated with an explicit indexed
running maximum: `drawdown[i] = (total_value[i] - M[i]) / M[i]`, result
`min(drawdown)`.  Written from the spec words, to be compared with
`calculate_max_drawdown`. -/
def spec_max_drawdown (vs : List ℚ) : ℚ :=
  match (List.range vs.length).map
      (fun i => (vs.getD i 0 - specRunningMax vs i) / specRunningMax vs i) with
  | [] => 0
  | d :: rest => seriesMin d rest

/-- `pandas.Series.pct_change()` on the portfolio-value series
(backtester.py line 87): a leading NaN (`none`) followed by
`v[i] / v[i-1] - 1`. -/
def pct_change : List ℚ → List (Option ℚ)
  | [] => []
  | v :: rest => none :: List.zipWith (fun prev cur => some (cur / prev - 1)) (v :: rest) rest

/-- The outcome of `calculate_sharpe_ratio`, a float-valued function whose
value cannot always be expressed in `ℚ`:
* `zeroFallback` — the guard `excess_returns.std() == 0` fired and the
  function returned the literal `0.0`;
* `nan` — the series had fewer than two non-NaN excess returns, so
  `std()` (ddof = 1, skipna) is NaN, the guard `NaN == 0` is false, and
  `sqrt(252) * mean / std` is NaN;
* `finite mean variance` — the guard failed with a positive variance; the
  returned float is `sqrt(252) * mean / sqrt(variance)`. -/
inductive SharpeOutcome where
  | zeroFallback
  | nan
  | finite (mean variance : ℚ)
  deriving Repr, DecidableEq

/-- `calculate_sharpe_ratio` (evaluation.py lines 53-72), embedded on the
branch structure that decides its claims.  `excess = returns - rf/252`
elementwise (NaN entries stay NaN); pandas `std()` uses `ddof = 1` and
skips NaN, so it is NaN exactly when fewer than two entries are non-NaN,
and it is `0` exactly when the sample variance of the non-NaN entries is
`0`. -/
def calculate_sharpe (returns : List (Option ℚ)) (risk_free_rate : ℚ) :
    SharpeOutcome :=
  let excess := returns.map (Option.map (fun r => r - risk_free_rate / 252))
  let valid := excess.filterMap id
  if 2 ≤ valid.length then
    let mean := valid.sum / valid.length
    let variance := (valid.map (fun x => (x - mean) ^ 2)).sum / (valid.length - 1 : ℚ)
    if variance = 0 then .zeroFallback else .finite mean variance
  else .nan

/-- `returns.iloc[p:i+1].sum()` (evaluation.py line 106): the sum of the
slice from position `p` through position `i` inclusive, skipping NaN
(pandas `sum` has `skipna=True`). -/
def sliceSum (returns : List (Option ℚ)) (p i : ℕ) : ℚ :=
  (((returns.drop p).take (i + 1 - p)).filterMap id).sum

/-- The scan loop of `calculate_win_rate` (evaluation.py lines 99-108):
walk the signal series with the current index `i`, the stored entry index
`position` (`0` doubles as the sentinel for "not in a trade"), and the
accumulated list of completed-trade returns.  A positive signal stores the
current index; a negative signal with `position > 0` closes the trade and
appends the summed return of the window `[position, i]`. -/
def winScanCode (returns : List (Option ℚ)) :
    List ℤ → ℕ → ℕ → List ℚ → List ℚ
  | [], _, _, acc => acc.reverse
  | s :: rest, i, position, acc =>
      if 0 < s then winScanCode returns rest (i + 1) i acc
      else if s < 0 ∧ 0 < position then
        winScanCode returns rest (i + 1) 0 (sliceSum returns position i :: acc)
      else winScanCode returns rest (i + 1) position acc

/-- The trade statistics returned by `calculate_win_rate`. -/
structure WinStats where
  total_trades : ℕ
  winning_trades : ℕ
  losing_trades : ℕ
  win_rate : ℚ
  deriving Repr, DecidableEq

/-- The all-zero statistics returned when no completed trade exists. -/
def zeroStats : WinStats :=
  { total_trades := 0, winning_trades := 0, losing_trades := 0, win_rate := 0 }

/-- Tally a list of completed-trade returns (evaluation.py lines 110-127):
`return > 0` is a win, `return ≤ 0` a loss, `win_rate` in percent. -/
def tallyTrades (trade_returns : List ℚ) : WinStats :=
  match trade_returns with
  | [] => zeroStats
  | _ :: _ =>
    { total_trades := trade_returns.length
    , winning_trades := (trade_returns.filter (fun r => 0 < r)).length
    , losing_trades := (trade_returns.filter (fun r => r ≤ 0)).length
    , win_rate := ((trade_returns.filter (fun r => 0 < r)).length : ℚ)
        / (trade_returns.length : ℚ) * 100 }

/-- `calculate_win_rate` (evaluation.py lines 75-127): early all-zero
return when no signal is nonzero (lines 87-95), otherwise scan for
completed trades and tally them. -/
def calculate_win_rate (signals : List ℤ) (returns : List (Option ℚ)) :
    WinStats :=
  if signals.filter (fun s => s ≠ 0) = [] then zeroStats
  else tallyTrades (winScanCode returns signals 0 0 [])

/-- The scan as the spec words it: "in a trade" is a genuine option state,
so a Buy stored at index 0 also opens a trade.  Written from the spec
words, to be compared with `winScanCode`. -/
def winScanSpec (returns : List (Option ℚ)) :
    List ℤ → ℕ → Option ℕ → List ℚ → List ℚ
  | [], _, _, acc => acc.reverse
  | s :: rest, i, st, acc =>
      if 0 < s then winScanSpec returns rest (i + 1) (some i) acc
      else if s < 0 then
        match st with
        | some p => winScanSpec returns rest (i + 1) none (sliceSum returns p i :: acc)
        | none => winScanSpec returns rest (i + 1) st acc
      else winScanSpec returns rest (i + 1) st acc

/-- Win-rate statistics as the spec words them: reconstruct
Buy-then-later-Sell pairs (index 0 included), tally wins and losses the
same way.  Written from the spec words, to be compared with
`calculate_win_rate`. -/
def spec_win_rate (signals : List ℤ) (returns : List (Option ℚ)) : WinStats :=
  tallyTrades (winScanSpec returns signals 0 none [])

/-- Placeholder entry used as the `getD` default when indexing ledgers. -/
def dummyEntry : LedgerEntry := { holdings := 0, cash := 0, total := 0 }

/-!  ## Theorems  -/

theorem runAux_length (c : ℚ) (st : BTState) (rest : List (ℤ × ℚ)) :
    (runAux c st rest).length = rest.length := by
  induction rest generalizing st with
  | nil => rfl
  | cons b rest ih => simpa [runAux] using ih _

/-- The ledger has exactly one row per bar. -/
theorem backtester_run_length (init c : ℚ) (bars : List (ℤ × ℚ)) :
    (backtester_run init c bars).length = bars.length := by
  cases bars with
  | nil => rfl
  | cons b rest => simp [backtester_run, runAux_length]

theorem runAux_getD (c : ℚ) (rest : List (ℤ × ℚ)) (st : BTState) (i : ℕ)
    (h : i < rest.length) :
    (runAux c st rest).getD i dummyEntry =
      entryOf ((rest.take (i + 1)).foldl (fun s b => btStep c s b.1 b.2) st)
        ((rest.getD i (0, 0)).2) := by
  induction rest generalizing st i with
  | nil => simp at h
  | cons b rest ih =>
      cases i with
      | zero =>
          cases b with
          | mk sig price => simp [runAux, List.take, List.foldl]
      | succ i =>
          have h' : i < rest.length := by simpa using h
          cases b with
          | mk sig price =>
            simpa [runAux, List.take, List.foldl] using
              ih (btStep c st sig price) i h'

/-- Row `i` of the ledger is the entry of the state in force at bar `i`,
valued at bar `i`'s close. -/
theorem backtester_run_getD (init c : ℚ) (bars : List (ℤ × ℚ)) (i : ℕ)
    (h : i < bars.length) :
    (backtester_run init c bars).getD i dummyEntry =
      entryOf (stateAt init c bars i) ((bars.getD i (0, 0)).2) := by
  cases bars with
  | nil => simp at h
  | cons b rest =>
      cases i with
      | zero =>
          simp [backtester_run, stateAt, initEntry, entryOf]
      | succ i =>
          have h' : i < rest.length := by simpa using h
          simpa [backtester_run, stateAt] using runAux_getD c rest _ i h'

/-- C1: every ledger entry satisfies `total_value = cash + holdings_value`
exactly, and `holdings_value` is the current share quantity (the loop state
in force at that bar) times that bar's close price. -/
theorem ledger_total_invariant (init c : ℚ) (bars : List (ℤ × ℚ)) (i : ℕ)
    (h : i < bars.length) :
    ((backtester_run init c bars).getD i dummyEntry).total =
        ((backtester_run init c bars).getD i dummyEntry).cash +
          ((backtester_run init c bars).getD i dummyEntry).holdings ∧
      ((backtester_run init c bars).getD i dummyEntry).holdings =
        ((stateAt init c bars i).position : ℚ) * (bars.getD i (0, 0)).2 := by
  rw [backtester_run_getD init c bars i h]
  exact ⟨rfl, rfl⟩

/-- Witness for C1 at Scenario A, bar 2 (just after the sell). -/
theorem ledger_total_invariant_witness :
    ((backtester_run 1000 0 [(0, 100), (1, 110), (-1, 90), (0, 120)]).getD 2
        dummyEntry).total =
      ((backtester_run 1000 0 [(0, 100), (1, 110), (-1, 90), (0, 120)]).getD 2
          dummyEntry).cash +
        ((backtester_run 1000 0 [(0, 100), (1, 110), (-1, 90), (0, 120)]).getD 2
            dummyEntry).holdings :=
  (ledger_total_invariant 1000 0 [(0, 100), (1, 110), (-1, 90), (0, 120)] 2
    (by norm_num)).1

/-- C5: the first bar is never traded: for any signal on bar 0 the ledger
opens with the unchanged initial state, and a one-bar series yields exactly
the one-row initial ledger. -/
theorem first_bar_never_traded (init c : ℚ) (b : ℤ × ℚ)
    (bars : List (ℤ × ℚ)) :
    (backtester_run init c (b :: bars)).head? =
        some { holdings := 0, cash := init, total := init } ∧
      backtester_run init c [b] =
        [{ holdings := 0, cash := init, total := init }] := by
  exact ⟨rfl, rfl⟩

/-- C6: a Buy signal while flat that can afford zero shares is silently
ignored: the state is exactly unchanged and the recorded entry carries the
prior cash forward with zero holdings. -/
theorem buy_with_zero_shares_ignored (c : ℚ) (st : BTState) (sig : ℤ)
    (price : ℚ) (hsig : 0 < sig) (hflat : st.position = 0)
    (hshares : pyInt (st.cash * (1 - c) / price) = 0) :
    btStep c st sig price = st ∧
      entryOf (btStep c st sig price) price =
        { holdings := 0, cash := st.cash, total := st.cash } := by
  have hstep : btStep c st sig price = st := by
    unfold btStep
    rw [if_pos ⟨hsig, hflat⟩]
    simp only [hshares]
    cases st with
    | mk cash position =>
        simp_all
  refine ⟨hstep, ?_⟩
  rw [hstep]
  simp [entryOf, hflat]

/-- Witness for C6: one buy signal, cash `1/2`, price `1`, zero commission:
`floor(1/2) = 0` shares, state unchanged. -/
theorem buy_with_zero_shares_ignored_witness :
    btStep 0 { cash := 1/2, position := 0 } 1 1 =
        { cash := 1/2, position := 0 } ∧
      entryOf (btStep 0 { cash := 1/2, position := 0 } 1 1) 1 =
        { holdings := 0, cash := 1/2, total := 1/2 } :=
  buy_with_zero_shares_ignored 0 { cash := 1/2, position := 0 } 1 1
    (by norm_num) rfl (by norm_num [pyInt])

theorem btStep_preserves_nonneg (c : ℚ) (st : BTState) (sig : ℤ) (price : ℚ)
    (hc0 : 0 ≤ c) (hc1 : c ≤ 1) (hp : 0 < price)
    (hcash : 0 ≤ st.cash) (hpos : 0 ≤ st.position) :
    0 ≤ (btStep c st sig price).cash ∧ 0 ≤ (btStep c st sig price).position := by
  unfold btStep
  split
  · set q : ℚ := st.cash * (1 - c) / price with hq
    have hq0 : 0 ≤ q := by
      apply div_nonneg _ hp.le
      exact mul_nonneg hcash (by linarith)
    have hfl : pyInt q = ⌊q⌋ := if_pos hq0
    have hfl0 : (0 : ℤ) ≤ ⌊q⌋ := Int.floor_nonneg.mpr hq0
    have hfle : ((⌊q⌋ : ℤ) : ℚ) ≤ q := Int.floor_le q
    have hAle : ((⌊q⌋ : ℤ) : ℚ) * price ≤ st.cash * (1 - c) := by
      rw [hq] at hfle
      exact (le_div_iff₀ hp).mp hfle
    have hA0 : 0 ≤ ((⌊q⌋ : ℤ) : ℚ) * price := by
      apply mul_nonneg _ hp.le
      exact_mod_cast hfl0
    constructor
    · show 0 ≤ st.cash - (((pyInt q : ℤ) : ℚ) * price + ((pyInt q : ℤ) : ℚ) * price * c)
      rw [hfl]
      nlinarith [mul_le_mul_of_nonneg_right hAle (by linarith : (0:ℚ) ≤ 1 + c),
        mul_nonneg (mul_nonneg hcash hc0) hc0]
    · show (0 : ℤ) ≤ pyInt q
      rw [hfl]; exact hfl0
  · split
    · rename_i hsell
      constructor
      · show 0 ≤ st.cash + ((st.position : ℚ) * price - (st.position : ℚ) * price * c)
        have hpos' : (0 : ℚ) < (st.position : ℚ) := by exact_mod_cast hsell.2
        nlinarith [mul_pos hpos' hp]
      · exact le_refl 0
    · exact ⟨hcash, hpos⟩

theorem foldl_btStep_nonneg (c : ℚ) (l : List (ℤ × ℚ)) (st : BTState)
    (hc0 : 0 ≤ c) (hc1 : c ≤ 1) (hp : ∀ b ∈ l, 0 < b.2)
    (hcash : 0 ≤ st.cash) (hpos : 0 ≤ st.position) :
    0 ≤ (l.foldl (fun s b => btStep c s b.1 b.2) st).cash ∧
      0 ≤ (l.foldl (fun s b => btStep c s b.1 b.2) st).position := by
  induction l generalizing st with
  | nil => exact ⟨hcash, hpos⟩
  | cons b rest ih =>
      have hb : 0 < b.2 := hp b (List.mem_cons_self b rest)
      have hstep := btStep_preserves_nonneg c st b.1 b.2 hc0 hc1 hb hcash hpos
      exact ih _ (fun x hx => hp x (List.mem_cons_of_mem b hx)) hstep.1 hstep.2

/-- C2: with `initial_capital ≥ 0`, `commission ∈ [0,1]` and positive close
prices (the spec's input precondition), the cash recorded in every ledger
entry is non-negative: the floored share count keeps cost plus fee within
the available cash, and a sell only adds cash. -/
theorem ledger_cash_nonneg (init c : ℚ) (bars : List (ℤ × ℚ)) (i : ℕ)
    (h0 : 0 ≤ init) (hc0 : 0 ≤ c) (hc1 : c ≤ 1)
    (hp : ∀ b ∈ bars, 0 < b.2) (hi : i < bars.length) :
    0 ≤ ((backtester_run init c bars).getD i dummyEntry).cash := by
  rw [backtester_run_getD init c bars i hi]
  show 0 ≤ (stateAt init c bars i).cash
  have hp' : ∀ b ∈ (bars.drop 1).take i, 0 < b.2 := fun b hb =>
    hp b (List.mem_of_mem_drop (List.mem_of_mem_take hb))
  exact (foldl_btStep_nonneg c ((bars.drop 1).take i)
    { cash := init, position := 0 } hc0 hc1 hp' h0 (le_refl 0)).1

/-- Witness for C2 at Scenario B (`commission = 1/100`), bar 1. -/
theorem ledger_cash_nonneg_witness :
    0 ≤ ((backtester_run 1000 (1/100)
      [(0, 100), (1, 110), (-1, 90), (0, 120)]).getD 1 dummyEntry).cash :=
  ledger_cash_nonneg 1000 (1/100) [(0, 100), (1, 110), (-1, 90), (0, 120)] 1
    (by norm_num) (by norm_num) (by norm_num) (by norm_num) (by norm_num)

/-- C3 counterexample: on prices `[100,110,90,120]`, signals `[0,+1,-1,0]`,
`initial_capital = 1000` and `commission = 1/100`, the final total value is
`802`, not `824`: `floor(1000 * 0.99 / 110) = floor(9) = 9` shares (not 8),
cost `990`, fee `9.9`, then sell revenue `810`, fee `8.1`. -/
theorem scenario_b_total_is_802_not_824 :
    ((backtester_run 1000 (1/100)
        [(0, 100), (1, 110), (-1, 90), (0, 120)]).getD 3 dummyEntry).total
      = 802 ∧
    ((backtester_run 1000 (1/100)
        [(0, 100), (1, 110), (-1, 90), (0, 120)]).getD 3 dummyEntry).total
      ≠ 824 := by
  have h : backtester_run 1000 (1/100) [(0, 100), (1, 110), (-1, 90), (0, 120)] =
      [ { holdings := 0, cash := 1000, total := 1000 }
      , { holdings := 990, cash := 1/10, total := 9901/10 }
      , { holdings := 0, cash := 802, total := 802 }
      , { holdings := 0, cash := 802, total := 802 } ] := by
    norm_num [backtester_run, runAux, btStep, pyInt, entryOf, initEntry]
  rw [h]
  norm_num [dummyEntry]

/-- C3 (amended): Scenario A (`commission = 0`) ends at total `820` as
claimed; Scenario B (`commission = 1/100`) buys `9` shares (cost `990`,
fee `9.9`, cash `1/10`), sells at revenue `810` minus fee `8.1`, and ends
at total `802`. -/
theorem scenario_a_and_b_ledgers :
    backtester_run 1000 0 [(0, 100), (1, 110), (-1, 90), (0, 120)] =
      [ { holdings := 0, cash := 1000, total := 1000 }
      , { holdings := 990, cash := 10, total := 1000 }
      , { holdings := 0, cash := 820, total := 820 }
      , { holdings := 0, cash := 820, total := 820 } ] ∧
    backtester_run 1000 (1/100) [(0, 100), (1, 110), (-1, 90), (0, 120)] =
      [ { holdings := 0, cash := 1000, total := 1000 }
      , { holdings := 990, cash := 1/10, total := 9901/10 }
      , { holdings := 0, cash := 802, total := 802 }
      , { holdings := 0, cash := 802, total := 802 } ] := by
  constructor <;>
    norm_num [backtester_run, runAux, btStep, pyInt, entryOf, initEntry]

/-- C4 counterexample: `Backtester.run` contains no validation and no
`InputError`: an empty series returns the empty ledger (output, not a
failure), and a series containing a non-positive close price is processed
normally, returning a full two-row ledger. -/
theorem run_returns_ledger_without_validation :
    backtester_run 1000 (1/100) [] = [] ∧
    backtester_run 1000 (1/100) [(0, 100), (0, -5)] =
      [ { holdings := 0, cash := 1000, total := 1000 }
      , { holdings := 0, cash := 1000, total := 1000 } ] := by
  constructor
  · rfl
  · norm_num [backtester_run, runAux, btStep, pyInt, entryOf, initEntry]

/-- C4 (amended): `run` never fails and never validates: for every input
whose closes are nonzero (a zero close under an executed buy is the one
place CPython would raise, an `OverflowError` from `int(inf)`, not an
`InputError`) it returns a ledger with exactly one row per bar. -/
theorem run_is_total_one_row_per_bar (init c : ℚ) (bars : List (ℤ × ℚ))
    (_h : ∀ b ∈ bars, b.2 ≠ 0) :
    (backtester_run init c bars).length = bars.length :=
  backtester_run_length init c bars

/-- Witness for C4 (amended) on the empty series and a two-bar series. -/
theorem run_is_total_one_row_per_bar_witness :
    (backtester_run 1000 (1/100) [(0, 100), (0, -5)]).length = 2 :=
  run_is_total_one_row_per_bar 1000 (1/100) [(0, 100), (0, -5)]
    (by norm_num)

theorem cummaxAux_length (m : ℚ) (l : List ℚ) :
    (cummaxAux m l).length = l.length := by
  induction l generalizing m with
  | nil => rfl
  | cons v rest ih => simpa [cummaxAux] using ih _

theorem cummax_length (vs : List ℚ) : (cummax vs).length = vs.length := by
  cases vs with
  | nil => rfl
  | cons v rest => simp [cummax, cummaxAux_length]

theorem cummaxAux_getD (l : List ℚ) (m : ℚ) (i : ℕ) (h : i < l.length) :
    (cummaxAux m l).getD i 0 = (l.take (i + 1)).foldl max m := by
  induction l generalizing m i with
  | nil => simp at h
  | cons v rest ih =>
      cases i with
      | zero => simp [cummaxAux]
      | succ i =>
          have h' : i < rest.length := by simpa using h
          simpa [cummaxAux] using ih (max m v) i h'

theorem cummax_getD (vs : List ℚ) (i : ℕ) (h : i < vs.length) :
    (cummax vs).getD i 0 = specRunningMax vs i := by
  cases vs with
  | nil => simp at h
  | cons v rest =>
      cases i with
      | zero => simp [cummax, specRunningMax, seriesMax]
      | succ i =>
          have h' : i < rest.length := by simpa using h
          rw [show cummax (v :: rest) = v :: cummaxAux v rest from rfl]
          rw [show (v :: cummaxAux v rest).getD (i+1) 0 =
            (cummaxAux v rest).getD i 0 from rfl]
          rw [cummaxAux_getD rest v i h']
          simp [specRunningMax, seriesMax, List.take_cons]

theorem drawdown_list_eq (vs : List ℚ) :
    List.zipWith (fun v m => (v - m) / m) vs (cummax vs) =
      (List.range vs.length).map
        (fun i => (vs.getD i 0 - specRunningMax vs i) / specRunningMax vs i) := by
  apply List.ext_getElem
  · simp [cummax_length]
  · intro i h1 h2
    have hi : i < vs.length := by
      simpa [cummax_length] using h1
    have hcm : i < (cummax vs).length := by simpa [cummax_length] using hi
    rw [List.getElem_zipWith, List.getElem_map, List.getElem_range]
    rw [show (cummax vs)[i] = (cummax vs).getD i 0 from
      (List.getD_eq_getElem (cummax vs) 0 hcm).symm]
    rw [cummax_getD vs i hi]
    rw [show vs[i] = vs.getD i 0 from (List.getD_eq_getElem vs 0 hi).symm]

/-- C7: `calculate_max_drawdown` computes exactly
`min over i of (total_value[i] - M[i]) / M[i]` for the indexed running
maximum `M[i]`; a single-entry ledger gives `0`; and the series
`[100, 120, 90, 130]` gives `-1/4` (−25%). -/
theorem max_drawdown_spec :
    (∀ vs : List ℚ, vs ≠ [] → (∀ v ∈ vs, 0 < v) →
        calculate_max_drawdown vs = spec_max_drawdown vs) ∧
      (∀ v : ℚ, 0 < v → calculate_max_drawdown [v] = 0) ∧
        calculate_max_drawdown [100, 120, 90, 130] = -(1/4) := by
  refine ⟨?_, ?_, ?_⟩
  · intro vs _ _
    unfold calculate_max_drawdown spec_max_drawdown
    rw [drawdown_list_eq vs]
  · intro v _
    norm_num [calculate_max_drawdown, cummax, cummaxAux, seriesMin]
  · norm_num [calculate_max_drawdown, cummax, cummaxAux, seriesMin]

/-- Witness for C7: the code and spec formulas agree on
`[100, 120, 90, 130]`, and the singleton ledger `[50]` gives `0`. -/
theorem max_drawdown_spec_witness :
    calculate_max_drawdown [100, 120, 90, 130] =
        spec_max_drawdown [100, 120, 90, 130] ∧
      calculate_max_drawdown [50] = 0 :=
  ⟨max_drawdown_spec.1 [100, 120, 90, 130] (by simp) (by norm_num),
    max_drawdown_spec.2.1 50 (by norm_num)⟩

theorem filterMap_id_map_option (g : ℚ → ℚ) (rs : List (Option ℚ)) :
    (rs.map (Option.map g)).filterMap id = (rs.filterMap id).map g := by
  induction rs with
  | nil => rfl
  | cons o rest ih => cases o <;> simp [ih]

/-- C8 counterexample: a two-point total-value series `[1000, 1100]` has a
single non-NaN return, pandas `std()` (ddof = 1) of one observation is NaN,
the guard `NaN == 0` is false, and `calculate_sharpe_ratio` returns NaN —
not the claimed `0`. -/
theorem sharpe_two_point_is_nan :
    calculate_sharpe (pct_change [1000, 1100]) (2/100) = .nan ∧
      calculate_sharpe (pct_change [1000, 1100]) (2/100) ≠ .zeroFallback := by
  have h : calculate_sharpe (pct_change [1000, 1100]) (2/100) = .nan := by
    norm_num [calculate_sharpe, pct_change, List.filterMap_cons,
      List.filterMap_nil]
  exact ⟨h, by rw [h]; intro hc; exact SharpeOutcome.noConfusion hc⟩

/-- C8 (amended): whenever the excess-return series has at least two
non-NaN entries and they are all equal — so the sample standard deviation
is exactly `0`, which covers every constant total-value series of length at
least 3 — `calculate_sharpe_ratio` returns exactly `0` via the guard. -/
theorem sharpe_zero_on_zero_variance (rs : List (Option ℚ)) (rf x : ℚ)
    (k : ℕ) (hk : rs.filterMap id = List.replicate k x) (h2 : 2 ≤ k) :
    calculate_sharpe rs rf = .zeroFallback := by
  have hkQ : ((k : ℕ) : ℚ) ≠ 0 := Nat.cast_ne_zero.mpr (by omega)
  simp only [calculate_sharpe, filterMap_id_map_option, hk,
    List.map_replicate, List.length_replicate, h2, if_true]
  simp only [List.sum_replicate, nsmul_eq_mul]
  rw [mul_div_cancel_left₀ _ hkQ]
  simp

/-- Witness for C8 (amended): the constant series `[1000, 1000, 1000, 1000]`
(Scenario C) yields exactly the zero fallback. -/
theorem sharpe_zero_on_zero_variance_witness :
    calculate_sharpe (pct_change [1000, 1000, 1000, 1000]) (2/100) =
      .zeroFallback :=
  sharpe_zero_on_zero_variance (pct_change [1000, 1000, 1000, 1000])
    (2/100) 0 3
    (by norm_num [pct_change, List.filterMap_cons, List.filterMap_nil,
      List.replicate])
    (by norm_num)

theorem winScanCode_step_no_trade (r : List (Option ℚ)) (a : ℤ)
    (rest : List ℤ) (i : ℕ) (acc : List ℚ) (ha : a ≤ 0) :
    winScanCode r (a :: rest) i 0 acc = winScanCode r rest (i + 1) 0 acc := by
  simp only [winScanCode]
  rw [if_neg (not_lt.mpr ha), if_neg]
  rintro ⟨-, h⟩
  exact lt_irrefl 0 h

theorem winScanSpec_step_none (r : List (Option ℚ)) (a : ℤ) (rest : List ℤ)
    (i : ℕ) (acc : List ℚ) (ha : a ≤ 0) :
    winScanSpec r (a :: rest) i none acc = winScanSpec r rest (i + 1) none acc := by
  simp only [winScanSpec]
  rw [if_neg (not_lt.mpr ha)]
  by_cases h : a < 0
  · rw [if_pos h]
  · rw [if_neg h]

theorem winScan_code_eq_spec (r : List (Option ℚ)) (sig : List ℤ) (i p : ℕ)
    (o : Option ℕ) (acc : List ℚ)
    (hrel : (p = 0 ∧ o = none) ∨ (0 < p ∧ o = some p)) (hi : 1 ≤ i) :
    winScanCode r sig i p acc = winScanSpec r sig i o acc := by
  induction sig generalizing i p o acc with
  | nil => rfl
  | cons s rest ih =>
      simp only [winScanCode, winScanSpec]
      by_cases hs : 0 < s
      · rw [if_pos hs, if_pos hs]
        exact ih (i + 1) i (some i) acc (Or.inr ⟨hi, rfl⟩) (by omega)
      · rw [if_neg hs, if_neg hs]
        by_cases hneg : s < 0
        · rw [if_pos hneg]
          rcases hrel with ⟨hp, ho⟩ | ⟨hp, ho⟩
          · subst hp; subst ho
            rw [if_neg]
            · exact ih (i + 1) 0 none acc (Or.inl ⟨rfl, rfl⟩) (by omega)
            · rintro ⟨-, h⟩; exact lt_irrefl 0 h
          · subst ho
            rw [if_pos ⟨hneg, hp⟩]
            exact ih (i + 1) 0 none _ (Or.inl ⟨rfl, rfl⟩) (by omega)
        · rw [if_neg (by rintro ⟨h, -⟩; exact hneg h), if_neg hneg]
          rcases hrel with ⟨hp, ho⟩ | ⟨hp, ho⟩
          · subst ho
            exact ih (i + 1) p none acc (Or.inl ⟨hp, rfl⟩) (by omega)
          · subst ho
            exact ih (i + 1) p (some p) acc (Or.inr ⟨hp, rfl⟩) (by omega)

theorem winScanCode_all_nonpos (r : List (Option ℚ)) (sig : List ℤ)
    (hs : ∀ x ∈ sig, x ≤ 0) (i : ℕ) (acc : List ℚ) :
    winScanCode r sig i 0 acc = acc.reverse := by
  induction sig generalizing i acc with
  | nil => rfl
  | cons s rest ih =>
      rw [winScanCode_step_no_trade r s rest i acc
        (hs s (List.mem_cons_self s rest))]
      exact ih (fun x hx => hs x (List.mem_cons_of_mem s hx)) (i + 1) acc

theorem winScanSpec_all_zero (r : List (Option ℚ)) (sig : List ℤ)
    (hz : ∀ x ∈ sig, x = 0) (i : ℕ) (o : Option ℕ) (acc : List ℚ) :
    winScanSpec r sig i o acc = acc.reverse := by
  induction sig generalizing i o acc with
  | nil => rfl
  | cons s rest ih =>
      have h0 : s = 0 := hz s (List.mem_cons_self s rest)
      subst h0
      simp only [winScanSpec]
      rw [if_neg (lt_irrefl 0), if_neg (lt_irrefl 0)]
      exact ih (fun x hx => hz x (List.mem_cons_of_mem 0 hx)) (i + 1) o acc

/-- C9 counterexample: the signal series `[+1, 0, -1]` contains one
Buy-then-later-Sell pair, yet `calculate_win_rate` reports zero completed
trades (the Buy is stored at index 0, which doubles as the not-in-a-trade
sentinel), while the pair reconstruction the spec describes finds one. -/
theorem win_rate_misses_buy_at_index_zero :
    (calculate_win_rate [1, 0, -1] [none, some 1, some (-1)]).total_trades
        = 0 ∧
      (spec_win_rate [1, 0, -1] [none, some 1, some (-1)]).total_trades
        = 1 := by
  constructor
  · norm_num [calculate_win_rate, winScanCode, tallyTrades, sliceSum,
      zeroStats, List.filterMap_cons, List.filterMap_nil, List.filter_cons,
      List.filter_nil, List.cons_ne_nil]
  · norm_num [spec_win_rate, winScanSpec, tallyTrades, sliceSum,
      List.filterMap_cons, List.filterMap_nil, List.filter_cons,
      List.filter_nil]

/-- C9 (amended): on every signal series whose first element is not a Buy,
`calculate_win_rate` implements exactly the spec's trade reconstruction:
Buy-then-later-Sell pairs closed by the first subsequent negative signal,
scored by the summed per-bar returns of the holding window, open trades
discounted, all-zero statistics when no completed trade exists. -/
theorem win_rate_eq_spec_without_buy_at_zero (s : List ℤ)
    (r : List (Option ℚ)) (h : s.headD 0 ≤ 0) :
    calculate_win_rate s r = spec_win_rate s r := by
  cases s with
  | nil => rfl
  | cons a rest =>
      have ha : a ≤ 0 := by simpa using h
      have hscan : winScanCode r (a :: rest) 0 0 [] =
          winScanSpec r (a :: rest) 0 none [] := by
        rw [winScanCode_step_no_trade r a rest 0 [] ha,
          winScanSpec_step_none r a rest 0 [] ha]
        exact winScan_code_eq_spec r rest 1 0 none []
          (Or.inl ⟨rfl, rfl⟩) (le_refl 1)
      unfold calculate_win_rate spec_win_rate
      split
      · rename_i hfil
        have hz : ∀ x ∈ a :: rest, x = 0 := by
          intro x hx
          have := List.filter_eq_nil_iff.mp hfil x hx
          simpa using this
        rw [winScanSpec_all_zero r (a :: rest) hz 0 none []]
        rfl
      · rw [hscan]

/-- Witness for C9 (amended) on `[0, +1, 0, -1]`: both sides agree. -/
theorem win_rate_eq_spec_without_buy_at_zero_witness :
    calculate_win_rate [0, 1, 0, -1] [none, some 1, some 2, some (-1)] =
      spec_win_rate [0, 1, 0, -1] [none, some 1, some 2, some (-1)] :=
  win_rate_eq_spec_without_buy_at_zero [0, 1, 0, -1]
    [none, some 1, some 2, some (-1)] (by norm_num)

/-- C10: when the only Buy of the series sits at index 0 (all later
signals are Hold or Sell), `calculate_win_rate` reports the all-zero
statistics: the exit branch demands a stored entry index strictly greater
than 0, and index 0 coincides with the not-in-a-trade sentinel, so the
pair formed with any later Sell is never counted. -/
theorem buy_at_index_zero_never_counted (a : ℤ) (rest : List ℤ)
    (r : List (Option ℚ)) (ha : 0 < a) (hrest : ∀ x ∈ rest, x ≤ 0) :
    calculate_win_rate (a :: rest) r = zeroStats := by
  have hscan : winScanCode r (a :: rest) 0 0 [] = [] := by
    have hstep : winScanCode r (a :: rest) 0 0 [] =
        winScanCode r rest 1 0 [] := by
      simp only [winScanCode]
      rw [if_pos ha]
    rw [hstep, winScanCode_all_nonpos r rest hrest 1 []]
    rfl
  unfold calculate_win_rate
  split
  · rfl
  · rw [hscan]; rfl

/-- Witness for C10: Buy at index 0, Sell at index 2, positive holding
return, still zero reported trades. -/
theorem buy_at_index_zero_never_counted_witness :
    calculate_win_rate [1, 0, -1] [none, some 1, some 1] = zeroStats :=
  buy_at_index_zero_never_counted 1 [0, -1] [none, some 1, some 1]
    (by norm_num) (by norm_num)

end Quant
